import Mathlib

/-!
Shallow embedding of the HKDF package (RFC 5869 extract-and-expand KDF)
from `src/hkdf/hkdf.go`, together with theorems settling the frozen
claims about it.

Bytes are modelled as `Nat` values (the code only ever moves bytes
around or feeds them to HMAC, so the `< 256` range never matters except
for the counter byte, where the source's 8-bit wraparound is made
explicit with `% 256`).  The hash/HMAC dependency of the package is an
abstract capability: a digest size together with a keyed-hash function
whose digests always have that size, exactly the interface the Go code
consumes from `crypto/hmac` and `hash.Hash`.
-/

namespace Hkdf

/-- The external HMAC capability consumed by the package: a fixed digest
size and a keyed hash `hmac key message`, with the guarantee (supplied
by `crypto/hmac` in the source) that every digest has length `size`. -/
structure HMACSpec where
  size : Nat
  hmac : List Nat → List Nat → List Nat
  hmac_size : ∀ key msg, (hmac key msg).length = size

/-- State of the `hkdf` struct from the source.  The Go struct stores a
keyed HMAC instance (`expander`) and its size; here we store the key
(`prk`) and obtain the size from the capability.  `counter` is the byte
field `counter`, `prev` is `prev`, `buf` is `buf`. -/
structure HkdfState where
  prk : List Nat
  info : List Nat
  counter : Nat
  prev : List Nat
  buf : List Nat
  deriving DecidableEq, Repr

/-- `Extract(hash, secret, salt)` from the source: if `salt == nil`,
substitute `hash().Size()` zero bytes; then HMAC keyed by the salt over
the secret.  A `nil` slice is modelled as `none`, a present (possibly
empty) slice as `some`. -/
def Extract (H : HMACSpec) (secret : List Nat) (salt : Option (List Nat)) : List Nat :=
  match salt with
  | none => H.hmac (List.replicate H.size 0) secret
  | some s => H.hmac s secret

/-- The `for len(p) > 0` loop of `hkdf.Read`.  `need` is `len(p)` at the
top of the loop (strictly positive on entry from `Read`).  Each round
computes `expander.Sum` over `prev ++ info ++ [counter]`, makes the
digest the new `prev`, increments the byte counter, and copies
`min need size` bytes out; on the final round the tail of the last block
is kept as the new `buf` (the trailing `f.buf = f.buf[n:]`).  `fuel`
bounds the rounds; `Read` passes enough that it is never exhausted. -/
def expandLoop (H : HMACSpec) (prk info : List Nat) :
    Nat → Nat → List Nat → Nat → List Nat × List Nat × Nat × List Nat
  | 0, _, prev, counter => ([], prev, counter, [])
  | fuel + 1, need, prev, counter =>
    let block := H.hmac prk (prev ++ info ++ [counter % 256])
    let c := (counter + 1) % 256
    if need ≤ block.length then
      (block.take need, block, c, block.drop need)
    else
      let r := expandLoop H prk info fuel (need - block.length) block c
      (block ++ r.1, r.2.1, r.2.2.1, r.2.2.2)

/-- `int(255 - f.counter + 1)` from the source's `remains` expression:
the byte subtraction `255 - counter` never borrows, the `+ 1` wraps to 0
exactly when `counter = 0`, so as a value this is `(256 - counter) mod
256` on the 8-bit counter. -/
def availBlocks (counter : Nat) : Nat :=
  (256 - counter % 256) % 256

/-- `hkdf.Read` from the source.  `remains` is
`len(f.buf) + int(255-f.counter+1)*f.size` with the byte arithmetic of
the source made explicit in `availBlocks`; requests beyond it fail with
the entropy-limit error and return with the state untouched.  Otherwise
the request is served from `buf` first and then block by block via
`expandLoop`. -/
def Read (H : HMACSpec) (s : HkdfState) (need : Nat) :
    Except String (List Nat) × HkdfState :=
  let remains := s.buf.length + availBlocks s.counter * H.size
  if remains < need then
    (Except.error "hkdf: entropy limit reached", s)
  else if need ≤ s.buf.length then
    (Except.ok (s.buf.take need), { s with buf := s.buf.drop need })
  else
    let m := need - s.buf.length
    let r := expandLoop H s.prk s.info m m s.prev s.counter
    (Except.ok (s.buf ++ r.1),
      { s with prev := r.2.1, counter := r.2.2.1, buf := r.2.2.2 })

/-- `Expand(hash, pseudorandomKey, info)` from the source: a fresh state
with `counter = 1` and empty `prev`/`buf`. -/
def Expand (H : HMACSpec) (prk info : List Nat) : HkdfState :=
  ⟨prk, info, 1, [], []⟩

/-- `New(hash, secret, salt, info)` from the source: `Extract` then
`Expand`. -/
def New (H : HMACSpec) (secret : List Nat) (salt : Option (List Nat))
    (info : List Nat) : HkdfState :=
  Expand H (Extract H secret salt) info

/-- Run a sequence of `Read` calls, collecting each call's result. -/
def runReads (H : HMACSpec) (s : HkdfState) :
    List Nat → List (Except String (List Nat)) × HkdfState
  | [] => ([], s)
  | n :: ns =>
    let r := Read H s n
    let rest := runReads H r.2 ns
    (r.1 :: rest.1, rest.2)

/-- Total number of bytes returned by the successful calls of a run. -/
def totalOk : List (Except String (List Nat)) → Nat
  | [] => 0
  | Except.ok o :: rs => o.length + totalOk rs
  | Except.error _ :: rs => totalOk rs

/-- Pure block chain of RFC 5869 expand: generate `k` blocks starting
from `prev` and counter byte `counter % 256`, returning the
concatenated bytes together with the final `prev` and counter. -/
def genAux (H : HMACSpec) (prk info : List Nat) :
    Nat → List Nat → Nat → List Nat × List Nat × Nat
  | 0, prev, counter => ([], prev, counter)
  | k + 1, prev, counter =>
    let block := H.hmac prk (prev ++ info ++ [counter % 256])
    let r := genAux H prk info k block ((counter + 1) % 256)
    (block ++ r.1, r.2.1, r.2.2)

/-- All bytes a state can still emit: the buffered leftover followed by
every block the counter still allows. -/
def avail (H : HMACSpec) (s : HkdfState) : List Nat :=
  s.buf ++ (genAux H s.prk s.info (availBlocks s.counter) s.prev s.counter).1

/-- A small concrete HMAC capability (digest size 2, digests depending
on both key and message) used to instantiate the theorems on
computable inputs. -/
def toyH : HMACSpec where
  size := 2
  hmac key msg := [(key.length + msg.length) % 256, (key.sum + msg.sum) % 256]
  hmac_size := by intro key msg; rfl

/-! ### Basic facts about the pure block chain -/

theorem genAux_fst_length (H : HMACSpec) (prk info : List Nat) (k : Nat) :
    ∀ (prev : List Nat) (c : Nat),
      (genAux H prk info k prev c).1.length = k * H.size := by
  induction k with
  | zero => intro prev c; simp [genAux]
  | succ k ih =>
    intro prev c
    simp [genAux, ih, H.hmac_size, Nat.succ_mul, Nat.add_comm]

theorem genAux_counter (H : HMACSpec) (prk info : List Nat) (k : Nat) :
    ∀ (prev : List Nat) (c : Nat), c < 256 →
      (genAux H prk info k prev c).2.2 = (c + k) % 256 := by
  induction k with
  | zero => intro prev c hc; simp [genAux, Nat.mod_eq_of_lt hc]
  | succ k ih =>
    intro prev c hc
    have h1 : (c + 1) % 256 < 256 := Nat.mod_lt _ (by omega)
    simp only [genAux]
    rw [ih _ _ h1]
    omega

theorem genAux_add (H : HMACSpec) (prk info : List Nat) (j m : Nat) :
    ∀ (prev : List Nat) (c : Nat),
      genAux H prk info (j + m) prev c =
        ((genAux H prk info j prev c).1 ++
           (genAux H prk info m (genAux H prk info j prev c).2.1
             (genAux H prk info j prev c).2.2).1,
         (genAux H prk info m (genAux H prk info j prev c).2.1
           (genAux H prk info j prev c).2.2).2) := by
  induction j with
  | zero => intro prev c; simp [genAux]
  | succ j ih =>
    intro prev c
    rw [Nat.succ_add]
    simp only [genAux]
    rw [ih]
    simp [List.append_assoc]

theorem avail_length (H : HMACSpec) (s : HkdfState) :
    (avail H s).length = s.buf.length + availBlocks s.counter * H.size := by
  simp [avail, genAux_fst_length]

/-! ### The read loop realises the block chain -/

theorem genAux_succ (H : HMACSpec) (prk info : List Nat) (k : Nat)
    (prev : List Nat) (c : Nat) :
    genAux H prk info (k + 1) prev c =
      (H.hmac prk (prev ++ info ++ [c % 256]) ++
         (genAux H prk info k (H.hmac prk (prev ++ info ++ [c % 256]))
           ((c + 1) % 256)).1,
       (genAux H prk info k (H.hmac prk (prev ++ info ++ [c % 256]))
         ((c + 1) % 256)).2) := rfl

theorem expandLoop_succ (H : HMACSpec) (prk info : List Nat)
    (fuel need : Nat) (prev : List Nat) (c : Nat) :
    expandLoop H prk info (fuel + 1) need prev c =
      if need ≤ (H.hmac prk (prev ++ info ++ [c % 256])).length then
        ((H.hmac prk (prev ++ info ++ [c % 256])).take need,
         H.hmac prk (prev ++ info ++ [c % 256]),
         (c + 1) % 256,
         (H.hmac prk (prev ++ info ++ [c % 256])).drop need)
      else
        ((H.hmac prk (prev ++ info ++ [c % 256])) ++
           (expandLoop H prk info fuel
             (need - (H.hmac prk (prev ++ info ++ [c % 256])).length)
             (H.hmac prk (prev ++ info ++ [c % 256])) ((c + 1) % 256)).1,
         (expandLoop H prk info fuel
           (need - (H.hmac prk (prev ++ info ++ [c % 256])).length)
           (H.hmac prk (prev ++ info ++ [c % 256])) ((c + 1) % 256)).2.1,
         (expandLoop H prk info fuel
           (need - (H.hmac prk (prev ++ info ++ [c % 256])).length)
           (H.hmac prk (prev ++ info ++ [c % 256])) ((c + 1) % 256)).2.2.1,
         (expandLoop H prk info fuel
           (need - (H.hmac prk (prev ++ info ++ [c % 256])).length)
           (H.hmac prk (prev ++ info ++ [c % 256])) ((c + 1) % 256)).2.2.2) := rfl

theorem expandLoop_spec (H : HMACSpec) (prk info : List Nat) (hsz : 1 ≤ H.size) :
    ∀ (fuel need : Nat) (prev : List Nat) (c : Nat),
      1 ≤ need → need ≤ fuel →
      ∃ k, 1 ≤ k ∧ (k - 1) * H.size < need ∧ need ≤ k * H.size ∧
        expandLoop H prk info fuel need prev c =
          ((genAux H prk info k prev c).1.take need,
           (genAux H prk info k prev c).2.1,
           (genAux H prk info k prev c).2.2,
           (genAux H prk info k prev c).1.drop need) := by
  intro fuel
  induction fuel with
  | zero => intro need prev c h1 h2; omega
  | succ fuel ih =>
    intro need prev c h1 h2
    have hbl : (H.hmac prk (prev ++ info ++ [c % 256])).length = H.size :=
      H.hmac_size _ _
    by_cases hle : need ≤ H.size
    · refine ⟨1, le_rfl, by simpa using h1, by simpa using hle, ?_⟩
      rw [expandLoop_succ, hbl, if_pos hle, genAux_succ]
      simp [genAux]
    · push_neg at hle
      obtain ⟨k, hk1, hk2, hk3, heq⟩ :=
        ih (need - H.size) (H.hmac prk (prev ++ info ++ [c % 256]))
          ((c + 1) % 256) (by omega) (by omega)
      refine ⟨k + 1, by omega, ?_, ?_, ?_⟩
      · have hmul : k * H.size = (k - 1) * H.size + H.size := by
          obtain ⟨k', rfl⟩ : ∃ k', k = k' + 1 := ⟨k - 1, by omega⟩
          simp [Nat.succ_mul]
        simp only [Nat.add_sub_cancel]
        omega
      · have hmul : (k + 1) * H.size = k * H.size + H.size := Nat.succ_mul _ _
        omega
      · rw [expandLoop_succ, hbl, if_neg (by omega), heq, genAux_succ]
        dsimp only
        generalize hB : H.hmac prk (prev ++ info ++ [c % 256]) = B
        rw [hB] at hbl
        generalize genAux H prk info k B ((c + 1) % 256) = G
        have e1 : B.length + (need - H.size) = need := by omega
        have htake : List.take need (B ++ G.1) =
            B ++ List.take (need - H.size) G.1 := by
          calc List.take need (B ++ G.1)
              = List.take (B.length + (need - H.size)) (B ++ G.1) := by rw [e1]
            _ = B ++ List.take (need - H.size) G.1 :=
              @List.take_append _ B G.1 (need - H.size)
        have hdrop : List.drop need (B ++ G.1) =
            List.drop (need - H.size) G.1 := by
          calc List.drop need (B ++ G.1)
              = List.drop (B.length + (need - H.size)) (B ++ G.1) := by rw [e1]
            _ = List.drop (need - H.size) G.1 :=
              @List.drop_append _ B G.1 (need - H.size)
        rw [htake, hdrop]

/-! ### Characterisation of `Read` -/

theorem availBlocks_shift (c k : Nat) (hc : c < 256) (h1 : 1 ≤ c)
    (hk : c + k ≤ 256) :
    availBlocks ((c + k) % 256) = availBlocks c - k := by
  unfold availBlocks
  omega

/-- A `Read` that has to generate blocks: there are `k ≥ 1` fresh blocks,
the counter stays in range (`counter ≥ 1`, `counter + k ≤ 256`), and the
result is exactly the buffered bytes followed by the first
`need - len(buf)` bytes of the `genAux` block chain, with the last block
as the new `prev`, its unconsumed tail as the new `buf`, and the counter
advanced by `k` in byte arithmetic. -/
theorem Read_loop_char (H : HMACSpec) (s : HkdfState) (n : Nat)
    (hc : s.counter < 256) (hb : s.buf.length < n)
    (hn : n ≤ (avail H s).length) :
    ∃ k, 1 ≤ k ∧ k ≤ availBlocks s.counter ∧ 1 ≤ s.counter ∧
      s.counter + k ≤ 256 ∧ n - s.buf.length ≤ k * H.size ∧
      Read H s n =
        (Except.ok (s.buf ++
           (genAux H s.prk s.info k s.prev s.counter).1.take (n - s.buf.length)),
         ⟨s.prk, s.info, (s.counter + k) % 256,
          (genAux H s.prk s.info k s.prev s.counter).2.1,
          (genAux H s.prk s.info k s.prev s.counter).1.drop (n - s.buf.length)⟩) := by
  have hlen := avail_length H s
  have hrem : n ≤ s.buf.length + availBlocks s.counter * H.size := by
    omega
  have hm1 : 1 ≤ n - s.buf.length := by omega
  have hm2 : n - s.buf.length ≤ availBlocks s.counter * H.size := by omega
  have hsz : 1 ≤ H.size := by
    rcases Nat.eq_zero_or_pos H.size with h0 | h1
    · rw [h0, Nat.mul_zero] at hm2; omega
    · exact h1
  obtain ⟨k, hk1, hk2, hk3, heq⟩ :=
    expandLoop_spec H s.prk s.info hsz (n - s.buf.length) (n - s.buf.length)
      s.prev s.counter hm1 le_rfl
  have hkA : k ≤ availBlocks s.counter := by
    by_contra hcon
    push_neg at hcon
    have : availBlocks s.counter * H.size ≤ (k - 1) * H.size :=
      Nat.mul_le_mul_right _ (by omega)
    omega
  have hc1 : 1 ≤ s.counter := by
    unfold availBlocks at hkA
    omega
  have hck : s.counter + k ≤ 256 := by
    unfold availBlocks at hkA
    omega
  refine ⟨k, hk1, hkA, hc1, hck, hk3, ?_⟩
  simp only [Read]
  rw [if_neg (by omega), if_neg (by omega), heq,
    genAux_counter H s.prk s.info k s.prev s.counter hc]

/-- On a request within the remaining capacity, `Read` returns the first
`n` bytes of `avail` and the new state's `avail` is what is left; the
counter stays an 8-bit value and the key and info are untouched. -/
theorem Read_spec (H : HMACSpec) (s : HkdfState) (n : Nat)
    (hc : s.counter < 256) (hn : n ≤ (avail H s).length) :
    (Read H s n).1 = Except.ok ((avail H s).take n) ∧
    avail H (Read H s n).2 = (avail H s).drop n ∧
    (Read H s n).2.counter < 256 ∧
    (Read H s n).2.prk = s.prk ∧
    (Read H s n).2.info = s.info := by
  have hlen := avail_length H s
  by_cases hb : n ≤ s.buf.length
  · have hread : Read H s n =
        (Except.ok (s.buf.take n), { s with buf := s.buf.drop n }) := by
      simp only [Read]
      rw [if_neg (by omega), if_pos hb]
    rw [hread]
    refine ⟨?_, ?_, hc, rfl, rfl⟩
    · rw [avail, List.take_append_of_le_length hb]
    · rw [avail, avail, List.drop_append_of_le_length hb]
  · push_neg at hb
    obtain ⟨k, hk1, hkA, hc1, hck, hkm, heq⟩ := Read_loop_char H s n hc hb hn
    rw [heq]
    have hglen : (genAux H s.prk s.info k s.prev s.counter).1.length = k * H.size :=
      genAux_fst_length H s.prk s.info k s.prev s.counter
    have hsplit := genAux_add H s.prk s.info k (availBlocks s.counter - k)
      s.prev s.counter
    rw [Nat.add_sub_cancel' hkA] at hsplit
    refine ⟨?_, ?_, Nat.mod_lt _ (by omega), rfl, rfl⟩
    · rw [avail]
      have e1 : s.buf.length + (n - s.buf.length) = n := by omega
      calc Except.ok (s.buf ++
            (genAux H s.prk s.info k s.prev s.counter).1.take (n - s.buf.length))
          = Except.ok (List.take (s.buf.length + (n - s.buf.length))
              (s.buf ++ (genAux H s.prk s.info (availBlocks s.counter)
                s.prev s.counter).1)) := by
            rw [@List.take_append _ s.buf _ (n - s.buf.length), hsplit]
            dsimp only
            rw [List.take_append_of_le_length (by omega)]
        _ = Except.ok (List.take n
              (s.buf ++ (genAux H s.prk s.info (availBlocks s.counter)
                s.prev s.counter).1)) := by rw [e1]
    · rw [avail, avail]
      dsimp only
      have e1 : s.buf.length + (n - s.buf.length) = n := by omega
      rw [availBlocks_shift s.counter k hc hc1 hck]
      rw [← genAux_counter H s.prk s.info k s.prev s.counter hc]
      calc (genAux H s.prk s.info k s.prev s.counter).1.drop (n - s.buf.length) ++
            (genAux H s.prk s.info (availBlocks s.counter - k)
              (genAux H s.prk s.info k s.prev s.counter).2.1
              (genAux H s.prk s.info k s.prev s.counter).2.2).1
          = List.drop (n - s.buf.length)
              ((genAux H s.prk s.info k s.prev s.counter).1 ++
               (genAux H s.prk s.info (availBlocks s.counter - k)
                 (genAux H s.prk s.info k s.prev s.counter).2.1
                 (genAux H s.prk s.info k s.prev s.counter).2.2).1) := by
            rw [List.drop_append_of_le_length (by omega)]
        _ = List.drop (s.buf.length + (n - s.buf.length))
              (s.buf ++ (genAux H s.prk s.info (availBlocks s.counter)
                s.prev s.counter).1) := by
            rw [@List.drop_append _ s.buf _ (n - s.buf.length), hsplit]
        _ = List.drop n (s.buf ++ (genAux H s.prk s.info (availBlocks s.counter)
              s.prev s.counter).1) := by rw [e1]

/-- A request beyond the remaining capacity fails with the entropy-limit
error and leaves the state untouched. -/
theorem Read_err (H : HMACSpec) (s : HkdfState) (n : Nat)
    (hn : (avail H s).length < n) :
    Read H s n = (Except.error "hkdf: entropy limit reached", s) := by
  have hlen := avail_length H s
  simp only [Read]
  rw [if_pos (by omega)]

/-- Inversion: the only way `Read` returns an error is the entropy-limit
check at the top, and then the state is returned untouched. -/
theorem Read_error_inv (H : HMACSpec) (s : HkdfState) (n : Nat) (e : String)
    (h : (Read H s n).1 = Except.error e) :
    (Read H s n).2 = s ∧ e = "hkdf: entropy limit reached" ∧
      s.buf.length + availBlocks s.counter * H.size < n := by
  by_cases h1 : s.buf.length + availBlocks s.counter * H.size < n
  · have hread : Read H s n = (Except.error "hkdf: entropy limit reached", s) := by
      simp only [Read]
      rw [if_pos h1]
    rw [hread] at h ⊢
    refine ⟨rfl, ?_, h1⟩
    have := h.symm
    injection this with h2
  · exfalso
    by_cases h2 : n ≤ s.buf.length
    · have hread : Read H s n =
          (Except.ok (s.buf.take n), { s with buf := s.buf.drop n }) := by
        simp only [Read]
        rw [if_neg h1, if_pos h2]
      rw [hread] at h
      exact Except.noConfusion h
    · have hread : (Read H s n).1 = Except.ok (s.buf ++
          (expandLoop H s.prk s.info (n - s.buf.length) (n - s.buf.length)
            s.prev s.counter).1) := by
        simp only [Read]
        rw [if_neg h1, if_neg h2]
      rw [hread] at h
      exact Except.noConfusion h

theorem expandLoop_counter_lt (H : HMACSpec) (prk info : List Nat) :
    ∀ (fuel need : Nat) (prev : List Nat) (c : Nat), c < 256 →
      (expandLoop H prk info fuel need prev c).2.2.1 < 256 := by
  intro fuel
  induction fuel with
  | zero => intro need prev c hc; exact hc
  | succ fuel ih =>
    intro need prev c hc
    rw [expandLoop_succ]
    by_cases hle : need ≤ (H.hmac prk (prev ++ info ++ [c % 256])).length
    · rw [if_pos hle]
      exact Nat.mod_lt _ (by omega)
    · rw [if_neg hle]
      exact ih _ _ _ (Nat.mod_lt _ (by omega))

theorem Read_counter_lt (H : HMACSpec) (s : HkdfState) (n : Nat)
    (hc : s.counter < 256) : (Read H s n).2.counter < 256 := by
  by_cases h1 : s.buf.length + availBlocks s.counter * H.size < n
  · have hread : Read H s n = (Except.error "hkdf: entropy limit reached", s) := by
      simp only [Read]
      rw [if_pos h1]
    rw [hread]
    exact hc
  · by_cases h2 : n ≤ s.buf.length
    · have hread : Read H s n =
          (Except.ok (s.buf.take n), { s with buf := s.buf.drop n }) := by
        simp only [Read]
        rw [if_neg h1, if_pos h2]
      rw [hread]
      exact hc
    · have hread : (Read H s n).2 = { s with
          prev := (expandLoop H s.prk s.info (n - s.buf.length)
            (n - s.buf.length) s.prev s.counter).2.1,
          counter := (expandLoop H s.prk s.info (n - s.buf.length)
            (n - s.buf.length) s.prev s.counter).2.2.1,
          buf := (expandLoop H s.prk s.info (n - s.buf.length)
            (n - s.buf.length) s.prev s.counter).2.2.2 } := by
        simp only [Read]
        rw [if_neg h1, if_neg h2]
      rw [hread]
      exact expandLoop_counter_lt H s.prk s.info _ _ s.prev s.counter hc

/-- The states an Expander built from `prk` and `info` can actually be
in: the fresh state of `Expand`, and anything a further `Read` (of any
size, failing or not) produces. -/
inductive Reachable (H : HMACSpec) (prk info : List Nat) : HkdfState → Prop
  | init : Reachable H prk info (Expand H prk info)
  | step (s : HkdfState) (n : Nat) :
      Reachable H prk info s → Reachable H prk info (Read H s n).2

theorem Reachable.counter_lt {H : HMACSpec} {prk info : List Nat}
    {s : HkdfState} (h : Reachable H prk info s) : s.counter < 256 := by
  induction h with
  | init => simp [Expand]
  | step s n _ ih => exact Read_counter_lt H s n ih

/-- Bytes are conserved along any run: what the successful calls return
plus what is still available equals what was available at the start. -/
theorem runReads_conserve (H : HMACSpec) :
    ∀ (ns : List Nat) (s : HkdfState), s.counter < 256 →
      totalOk (runReads H s ns).1 + (avail H (runReads H s ns).2).length =
        (avail H s).length := by
  intro ns
  induction ns with
  | nil => intro s hc; simp [runReads, totalOk]
  | cons n ns ih =>
    intro s hc
    by_cases hn : n ≤ (avail H s).length
    · obtain ⟨hout, havail, hc', _, _⟩ := Read_spec H s n hc hn
      have hlen : ((avail H s).take n).length = n := by
        rw [List.length_take]
        omega
      have := ih (Read H s n).2 hc'
      simp only [runReads, hout, totalOk] at *
      rw [havail] at this
      rw [List.length_drop] at this
      omega
    · push_neg at hn
      have hread := Read_err H s n hn
      simp only [runReads, hread, totalOk]
      exact ih s hc

/-- A fresh Expander has exactly `255 * size` bytes available. -/
theorem avail_fresh_length (H : HMACSpec) (prk info : List Nat) :
    (avail H (Expand H prk info)).length = 255 * H.size := by
  rw [avail_length]
  simp [Expand, availBlocks]

theorem Read_preserves_key (H : HMACSpec) (s : HkdfState) (n : Nat) :
    (Read H s n).2.prk = s.prk ∧ (Read H s n).2.info = s.info := by
  simp only [Read]
  split
  · exact ⟨rfl, rfl⟩
  · split
    · exact ⟨rfl, rfl⟩
    · exact ⟨rfl, rfl⟩

theorem Reachable.prk_info_eq {H : HMACSpec} {prk info : List Nat}
    {s : HkdfState} (h : Reachable H prk info s) :
    s.prk = prk ∧ s.info = info := by
  induction h with
  | init => exact ⟨rfl, rfl⟩
  | step s n _ ih =>
    obtain ⟨h1, h2⟩ := Read_preserves_key H s n
    exact ⟨h1.trans ih.1, h2.trans ih.2⟩

/-! ### The claims -/

/-- Claim C1: on any reachable Expander state, a `Read` that has to
generate blocks (`len(buf) < n` within the remaining capacity) produces
its `k ≥ 1` fresh blocks exactly as the `genAux` chain keyed by the
PRK — each block is `hmac prk (prev ++ info ++ [counter byte])`, the
digest becomes the new `prev`, and the counter is incremented once per
block — and every counter byte used lies in 1..255: never 0 and never
wrapping past 255. -/
theorem claim_C1_read_blocks (H : HMACSpec) (prk info : List Nat)
    (s : HkdfState) (n : Nat) (hs : Reachable H prk info s)
    (hb : s.buf.length < n) (hn : n ≤ (avail H s).length) :
    ∃ k, 1 ≤ k ∧ s.prk = prk ∧ s.info = info ∧
      1 ≤ s.counter ∧ s.counter + k ≤ 256 ∧
      (∀ i, i < k → 1 ≤ (s.counter + i) % 256 ∧ (s.counter + i) % 256 ≤ 255) ∧
      Read H s n =
        (Except.ok (s.buf ++
           (genAux H s.prk s.info k s.prev s.counter).1.take (n - s.buf.length)),
         ⟨s.prk, s.info, (s.counter + k) % 256,
          (genAux H s.prk s.info k s.prev s.counter).2.1,
          (genAux H s.prk s.info k s.prev s.counter).1.drop (n - s.buf.length)⟩) := by
  obtain ⟨k, hk1, hkA, hc1, hck, hkm, heq⟩ :=
    Read_loop_char H s n hs.counter_lt hb hn
  refine ⟨k, hk1, hs.prk_info_eq.1, hs.prk_info_eq.2, hc1, hck, ?_, heq⟩
  intro i hi
  have hlt : s.counter + i < 256 := by omega
  rw [Nat.mod_eq_of_lt hlt]
  omega

theorem claim_C1_read_blocks_witness :
    ∃ k, 1 ≤ k ∧ (Expand toyH [5] [7]).prk = [5] ∧
      (Expand toyH [5] [7]).info = [7] ∧
      1 ≤ (Expand toyH [5] [7]).counter ∧
      (Expand toyH [5] [7]).counter + k ≤ 256 ∧
      (∀ i, i < k → 1 ≤ ((Expand toyH [5] [7]).counter + i) % 256 ∧
        ((Expand toyH [5] [7]).counter + i) % 256 ≤ 255) ∧
      Read toyH (Expand toyH [5] [7]) 3 =
        (Except.ok ((Expand toyH [5] [7]).buf ++
           (genAux toyH (Expand toyH [5] [7]).prk (Expand toyH [5] [7]).info k
             (Expand toyH [5] [7]).prev (Expand toyH [5] [7]).counter).1.take
               (3 - (Expand toyH [5] [7]).buf.length)),
         ⟨(Expand toyH [5] [7]).prk, (Expand toyH [5] [7]).info,
          ((Expand toyH [5] [7]).counter + k) % 256,
          (genAux toyH (Expand toyH [5] [7]).prk (Expand toyH [5] [7]).info k
            (Expand toyH [5] [7]).prev (Expand toyH [5] [7]).counter).2.1,
          (genAux toyH (Expand toyH [5] [7]).prk (Expand toyH [5] [7]).info k
            (Expand toyH [5] [7]).prev (Expand toyH [5] [7]).counter).1.drop
              (3 - (Expand toyH [5] [7]).buf.length)⟩) :=
  claim_C1_read_blocks toyH [5] [7] (Expand toyH [5] [7]) 3 Reachable.init
    (by decide) (by rw [avail_fresh_length]; decide)

/-- Claim C2: streaming equivalence — reading `a` bytes and then `b`
bytes from a fresh Expander yields, concatenated, the same bytes as a
single read of `a + b` from an identically constructed fresh
Expander. -/
theorem claim_C2_streaming_split (H : HMACSpec) (prk info : List Nat)
    (a b : Nat) (o1 o2 : List Nat) (s1 s2 : HkdfState)
    (h1 : Read H (Expand H prk info) a = (Except.ok o1, s1))
    (h2 : Read H s1 b = (Except.ok o2, s2)) :
    (Read H (Expand H prk info) (a + b)).1 = Except.ok (o1 ++ o2) := by
  have hc0 : (Expand H prk info).counter < 256 := by norm_num [Expand]
  have ha : a ≤ (avail H (Expand H prk info)).length := by
    by_contra hcon
    push_neg at hcon
    rw [Read_err H (Expand H prk info) a hcon] at h1
    have := congrArg Prod.fst h1
    simp at this
  obtain ⟨hout1, havail1, hc1, _, _⟩ := Read_spec H (Expand H prk info) a hc0 ha
  have hs1 : (Read H (Expand H prk info) a).2 = s1 := congrArg Prod.snd h1
  have ho1 : o1 = (avail H (Expand H prk info)).take a := by
    have hfst := congrArg Prod.fst h1
    rw [hout1] at hfst
    injection hfst with hfst
    exact hfst.symm
  have hc1' : s1.counter < 256 := hs1 ▸ hc1
  have hb' : b ≤ (avail H s1).length := by
    by_contra hcon
    push_neg at hcon
    rw [Read_err H s1 b hcon] at h2
    have := congrArg Prod.fst h2
    simp at this
  obtain ⟨hout2, _, _, _, _⟩ := Read_spec H s1 b hc1' hb'
  have ho2 : o2 = (avail H s1).take b := by
    have hfst := congrArg Prod.fst h2
    rw [hout2] at hfst
    injection hfst with hfst
    exact hfst.symm
  have hlen1 : (avail H s1).length = (avail H (Expand H prk info)).length - a := by
    rw [← hs1, havail1, List.length_drop]
  have hab : a + b ≤ (avail H (Expand H prk info)).length := by omega
  obtain ⟨hout3, _, _, _, _⟩ := Read_spec H (Expand H prk info) (a + b) hc0 hab
  rw [hout3, ho1, ho2, ← hs1, havail1, ← List.take_add]

theorem claim_C2_streaming_split_witness :
    (Read toyH (Expand toyH [5] [7]) (2 + 3)).1 =
      Except.ok ([3, 13] ++ [5, 30, 5]) :=
  claim_C2_streaming_split toyH [5] [7] 2 3 [3, 13] [5, 30, 5]
    ⟨[5], [7], 2, [3, 13], []⟩ ⟨[5], [7], 4, [5, 50], [50]⟩ rfl rfl

/-- Claim C3: on a fresh Expander a single read of exactly
`255 * size` bytes succeeds and returns that many bytes, while a read
of `255 * size + 1` bytes fails with the entropy-limit error. -/
theorem claim_C3_limit_boundary (H : HMACSpec) (prk info : List Nat) :
    (∃ o, (Read H (Expand H prk info) (255 * H.size)).1 = Except.ok o ∧
       o.length = 255 * H.size) ∧
    Read H (Expand H prk info) (255 * H.size + 1) =
      (Except.error "hkdf: entropy limit reached", Expand H prk info) := by
  have hfresh := avail_fresh_length H prk info
  constructor
  · have hc : (Expand H prk info).counter < 256 := by norm_num [Expand]
    obtain ⟨hout, _, _, _, _⟩ :=
      Read_spec H (Expand H prk info) (255 * H.size) hc (by omega)
    refine ⟨_, hout, ?_⟩
    rw [List.length_take]
    omega
  · exact Read_err H (Expand H prk info) _ (by omega)

/-- Claim C4: over any finite sequence of reads on one Expander the
successful calls return at most `255 * size` bytes in total, and a read
errors exactly when it requests more than the remaining capacity. -/
theorem claim_C4_entropy_budget (H : HMACSpec) (prk info : List Nat) :
    (∀ ns : List Nat,
       totalOk (runReads H (Expand H prk info) ns).1 ≤ 255 * H.size) ∧
    (∀ (s : HkdfState) (n : Nat), Reachable H prk info s →
       ((∃ e, (Read H s n).1 = Except.error e) ↔ (avail H s).length < n)) := by
  constructor
  · intro ns
    have h := runReads_conserve H ns (Expand H prk info) (by norm_num [Expand])
    rw [avail_fresh_length] at h
    omega
  · intro s n hs
    constructor
    · rintro ⟨e, he⟩
      obtain ⟨-, -, hlt⟩ := Read_error_inv H s n e he
      rw [avail_length]
      exact hlt
    · intro hlt
      exact ⟨"hkdf: entropy limit reached", by rw [Read_err H s n hlt]⟩

theorem claim_C4_entropy_budget_witness :
    totalOk (runReads toyH (Expand toyH [5] [7]) [509, 2, 1]).1 ≤
      255 * toyH.size ∧
    ((∃ e, (Read toyH (Expand toyH [5] [7]) 511).1 = Except.error e) ↔
      (avail toyH (Expand toyH [5] [7])).length < 511) :=
  ⟨(claim_C4_entropy_budget toyH [5] [7]).1 [509, 2, 1],
   (claim_C4_entropy_budget toyH [5] [7]).2 (Expand toyH [5] [7]) 511
     Reachable.init⟩

/-- Claim C5: whenever `Read` returns an error it is the entropy-limit
error, and the Expander state is returned exactly as it was — no bytes
are produced and no field is modified. -/
theorem claim_C5_error_no_mutation (H : HMACSpec) (s : HkdfState) (n : Nat)
    (e : String) (h : (Read H s n).1 = Except.error e) :
    (Read H s n).2 = s ∧ e = "hkdf: entropy limit reached" :=
  ⟨(Read_error_inv H s n e h).1, (Read_error_inv H s n e h).2.1⟩

theorem claim_C5_error_no_mutation_witness :
    (Read toyH (Expand toyH [5] [7]) 511).2 = Expand toyH [5] [7] ∧
      "hkdf: entropy limit reached" = "hkdf: entropy limit reached" :=
  claim_C5_error_no_mutation toyH (Expand toyH [5] [7]) 511
    "hkdf: entropy limit reached" rfl

/-- Claim C6: `New(hash, secret, salt, info)` behaves identically, under
every sequence of reads, to `Expand(hash, Extract(hash, secret, salt),
info)` — in the source `New` is literally that composition. -/
theorem claim_C6_new_is_extract_expand (H : HMACSpec) (secret : List Nat)
    (salt : Option (List Nat)) (info : List Nat) (ns : List Nat) :
    runReads H (New H secret salt info) ns =
      runReads H (Expand H (Extract H secret salt) info) ns := rfl

/-- Claim C7: extracting with an absent (`nil`) salt gives the same PRK
as extracting with a salt of `size` zero bytes. -/
theorem claim_C7_nil_salt_zero_salt (H : HMACSpec) (secret : List Nat) :
    Extract H secret none =
      Extract H secret (some (List.replicate H.size 0)) := rfl

/-- Claim C8: a zero-length read on any state succeeds with zero bytes
and leaves the state (counter, prev, buf) exactly unchanged. -/
theorem claim_C8_zero_read (H : HMACSpec) (s : HkdfState) :
    Read H s 0 = (Except.ok [], s) := by
  simp only [Read]
  rw [if_neg (by omega), if_pos (Nat.zero_le _)]
  simp

/-- Claim C9: in every reachable state the stored counter is an 8-bit
value; the source's remaining-capacity expression
`len(buf) + int(255-counter+1)*size` (here
`buf.length + availBlocks counter * size`) equals the number of bytes
still derivable — a read succeeds returning exactly `n` bytes iff
`n` is at most that expression; when the counter has wrapped to 0 the
block term `availBlocks 0` is 0 so only buffered bytes remain; and any
read that generates a block finds a counter ≥ 1, so no block is ever
generated with counter byte 0. -/
theorem claim_C9_counter_capacity (H : HMACSpec) (prk info : List Nat)
    (s : HkdfState) (hs : Reachable H prk info s) :
    s.counter < 256 ∧
    (avail H s).length = s.buf.length + availBlocks s.counter * H.size ∧
    (s.counter = 0 →
      availBlocks s.counter = 0 ∧ (avail H s).length = s.buf.length) ∧
    (∀ n, (∃ o s', Read H s n = (Except.ok o, s') ∧ o.length = n) ↔
       n ≤ s.buf.length + availBlocks s.counter * H.size) ∧
    (∀ n, s.buf.length < n →
       n ≤ s.buf.length + availBlocks s.counter * H.size → 1 ≤ s.counter) := by
  have hc := hs.counter_lt
  have hlen := avail_length H s
  refine ⟨hc, hlen, ?_, ?_, ?_⟩
  · intro h0
    have hz : availBlocks s.counter = 0 := by unfold availBlocks; omega
    refine ⟨hz, ?_⟩
    rw [hlen, hz, Nat.zero_mul, Nat.add_zero]
  · intro n
    constructor
    · rintro ⟨o, s', hr, hlo⟩
      by_contra hcon
      push_neg at hcon
      rw [Read_err H s n (by omega)] at hr
      have := congrArg Prod.fst hr
      simp at this
    · intro hle
      obtain ⟨hout, _, _, _, _⟩ := Read_spec H s n hc (by omega)
      refine ⟨(avail H s).take n, (Read H s n).2, ?_, ?_⟩
      · exact Prod.ext hout rfl
      · rw [List.length_take]
        omega
  · intro n hbn hle
    obtain ⟨k, hk1, hkA, hc1, hck, hkm, heq⟩ :=
      Read_loop_char H s n hc hbn (by omega)
    exact hc1

theorem claim_C9_counter_capacity_witness :
    (Expand toyH [5] [7]).counter < 256 ∧
    (avail toyH (Expand toyH [5] [7])).length =
      (Expand toyH [5] [7]).buf.length +
        availBlocks (Expand toyH [5] [7]).counter * toyH.size ∧
    ((Expand toyH [5] [7]).counter = 0 →
      availBlocks (Expand toyH [5] [7]).counter = 0 ∧
      (avail toyH (Expand toyH [5] [7])).length =
        (Expand toyH [5] [7]).buf.length) ∧
    (∀ n, (∃ o s', Read toyH (Expand toyH [5] [7]) n = (Except.ok o, s') ∧
        o.length = n) ↔
      n ≤ (Expand toyH [5] [7]).buf.length +
        availBlocks (Expand toyH [5] [7]).counter * toyH.size) ∧
    (∀ n, (Expand toyH [5] [7]).buf.length < n →
      n ≤ (Expand toyH [5] [7]).buf.length +
        availBlocks (Expand toyH [5] [7]).counter * toyH.size →
      1 ≤ (Expand toyH [5] [7]).counter) :=
  claim_C9_counter_capacity toyH [5] [7] (Expand toyH [5] [7]) Reachable.init

/-- Claim C10: the zero-filled salt is substituted only for an absent
(`nil`) salt; a present but empty salt is used as the HMAC key as-is, so
the two take different paths — and on a concrete HMAC instance they
produce different PRKs. -/
theorem claim_C10_nil_vs_empty_salt :
    (∀ (H : HMACSpec) (secret : List Nat),
       Extract H secret (some []) = H.hmac [] secret ∧
       Extract H secret none = H.hmac (List.replicate H.size 0) secret) ∧
    Extract toyH [] (some []) ≠ Extract toyH [] none :=
  ⟨fun _ _ => ⟨rfl, rfl⟩, by decide⟩

end Hkdf
